import Mathlib

/-!
Verification of `redshift.py` — an MQTT daemon that adjusts smart-light
color temperature and brightness over the day.

Shallow embedding conventions:
* Python floats (hours, color temperatures, brightness levels, timestamps in
  seconds) are modelled as `ℚ`.
* `datetime` values are modelled as rational timestamps on a single axis
  (seconds); `datetime(1900,1,1)` becomes the Unix-seconds constant
  `epoch1900`.  Only differences of timestamps are ever used by the code.
* The light dictionary `lights` (a Python `dict`, insertion-ordered) is an
  association list in insertion order; `dict.setdefault` appends at the end.
* A `client.publish(topic, ...)` call is recorded by appending `topic` to a
  publish list; the payload (always `json.dumps(redshift())`) is determined
  by the curve and the wall clock, so recording topics suffices.
* Each model function takes the wall-clock instant `now` as a parameter
  (the Python code calls `datetime.now()` during one handler invocation).
-/

/-- State kept per light: `{ 'on': ..., 'changed': ... }` in `lights`. -/
structure LightState where
  onFlag : Bool
  changed : ℚ
  deriving DecidableEq, Repr

/-- Unix timestamp (seconds) of `datetime(1900,1,1)`. -/
def epoch1900 : ℚ := -2208988800

/-- The default entry `{ 'on': False, 'changed': datetime(1900,1,1) }`. -/
def defaultLight : LightState := ⟨false, epoch1900⟩

/-- The `lights` dictionary: topic ↦ state, in insertion order. -/
abbrev Reg := List (String × LightState)

/-- Dictionary lookup `lights[topic]` (first matching key). -/
def regFind : Reg → String → Option LightState
  | [], _ => none
  | (k, v) :: rest, t => if k = t then some v else regFind rest t

/-- `lights.setdefault(topic, d)`: returns the (possibly extended)
dictionary and the entry for `topic`.  A missing key is inserted at the
end, matching Python dict insertion order. -/
def setdefault (reg : Reg) (t : String) (d : LightState) : Reg × LightState :=
  match regFind reg t with
  | some v => (reg, v)
  | none => (reg ++ [(t, d)], d)

/-- `lights[topic]['on'] = b` (updates the entry in place). -/
def regSetOn : Reg → String → Bool → Reg
  | [], _, _ => []
  | (k, v) :: rest, t, b =>
    if k = t then (k, ⟨b, v.changed⟩) :: rest
    else (k, v) :: regSetOn rest t b

/-- `lights[topic]['changed'] = now`. -/
def regSetChanged : Reg → String → ℚ → Reg
  | [], _, _ => []
  | (k, v) :: rest, t, c =>
    if k = t then (k, ⟨v.onFlag, c⟩) :: rest
    else (k, v) :: regSetChanged rest t c

/-- The outcome of receiving one MQTT message, as seen by `on_message`:
`missing` is `message.payload is None`; `malformed` is a payload on which
`json.loads` raises; `parsed o` is a successfully parsed payload whose
`on` field is `o` (absent, or a boolean). -/
inductive Payload where
  | missing : Payload
  | malformed : Payload
  | parsed : Option Bool → Payload
  deriving DecidableEq

/-- `on_message` (redshift.py lines 89–114).  Returns the dictionary after
the handler and the list of topics published to.  The `try/except` around
the body means an exception leaves in place exactly the mutations made
before the raising line: `json.loads` raises before `setdefault` runs, but
a parsed object lacking `'on'` raises at the `new_state['on']` access,
after `setdefault` has already (possibly) inserted the default entry. -/
def on_message (reg : Reg) (topic : String) (p : Payload) (now adjust : ℚ) :
    Reg × List String :=
  match p with
  | .missing => (reg, [])
  | .malformed => (reg, [])
  | .parsed none => ((setdefault reg topic defaultLight).1, [])
  | .parsed (some b) =>
    let sd := setdefault reg topic defaultLight
    let reg1 := sd.1
    let old := sd.2
    -- was_turned_on = new_state['on'] and (not old_state['on'])
    -- needs_update  = (now - old_state['changed']).total_seconds() > AdjustSeconds
    if b = true ∧ ((b = true ∧ old.onFlag = false) ∨ now - old.changed > adjust) then
      (regSetOn (regSetChanged reg1 topic now) topic b, [topic ++ "/set"])
    else
      (regSetOn reg1 topic b, [])

/-- One pass of the sweep `for path, light in lights.items(): ...`
(redshift.py lines 142–148): publish for the first stale entry, stamp its
`changed`, and `break`. -/
def sweepScan (reg : Reg) (now adjust : ℚ) : Reg × List String :=
  match reg with
  | [] => ([], [])
  | (path, light) :: rest =>
    if now - light.changed > adjust then
      ((path, ⟨light.onFlag, now⟩) :: rest, [path ++ "/set"])
    else
      let r := sweepScan rest now adjust
      ((path, light) :: r.1, r.2)

/-- One iteration of the main `while True` loop (redshift.py lines
137–152), acting on the pair (wait counter, lights dictionary) and
returning the new pair together with the topics published this tick. -/
def tick (waitCycles : ℕ) (st : ℕ × Reg) (now adjust : ℚ) :
    (ℕ × Reg) × List String :=
  if st.1 = 0 then
    let r := sweepScan st.2 now adjust
    ((waitCycles, r.1), r.2)
  else
    ((st.1 - 1, st.2), [])

/-- State of the main loop after `n` ticks, starting from
`wait = wait_cycles` and dictionary `reg0`; `nows k` is the wall clock
during tick `k+1`. -/
def loopState (waitCycles : ℕ) (adjust : ℚ) (nows : ℕ → ℚ) (reg0 : Reg) :
    ℕ → ℕ × Reg
  | 0 => (waitCycles, reg0)
  | n + 1 => (tick waitCycles (loopState waitCycles adjust nows reg0 n) (nows n) adjust).1

/-- The topics published during the `n`-th tick (1-based). -/
def pubsOnTick (waitCycles : ℕ) (adjust : ℚ) (nows : ℕ → ℚ) (reg0 : Reg)
    (n : ℕ) : List String :=
  (tick waitCycles (loopState waitCycles adjust nows reg0 (n - 1)) (nows (n - 1)) adjust).2

/-- Whether the `n`-th tick (1-based) performs a sweep, i.e. finds the
wait counter at `0` and scans the dictionary. -/
def sweepsAt (waitCycles : ℕ) (adjust : ℚ) (nows : ℕ → ℚ) (reg0 : Reg)
    (n : ℕ) : Bool :=
  decide ((loopState waitCycles adjust nows reg0 (n - 1)).1 = 0)

/-- Just the wait counter of the loop: `wait = wait_cycles` initially,
then each tick either resets (from `0`) or decrements. -/
def waitBefore (waitCycles : ℕ) : ℕ → ℕ
  | 0 => waitCycles
  | n + 1 => if waitBefore waitCycles n = 0 then waitCycles
             else waitBefore waitCycles n - 1

/-- Python's `bisect.bisect(a, x, lo, hi)` (= `bisect_right`): the binary
search loop `while lo < hi: mid = (lo+hi)//2; if x < a[mid]: hi = mid
else: lo = mid+1`, written with an explicit iteration bound.  Since
`hi - lo` strictly decreases on every iteration, a fuel of `hi - lo`
iterations always reaches `lo = hi`; out-of-range reads return `0`
(never exercised at the call sites, where `lo ≤ mid < hi ≤ len a - 1`). -/
def bisectGo (a : List ℚ) (x : ℚ) : ℕ → ℕ → ℕ → ℕ
  | 0, lo, _ => lo
  | fuel + 1, lo, hi =>
    if lo < hi then
      let mid := (lo + hi) / 2
      if x < a.getD mid 0 then bisectGo a x fuel lo mid
      else bisectGo a x fuel (mid + 1) hi
    else lo

/-- `bisect(a, x, lo, hi)`. -/
def bisect (a : List ℚ) (x : ℚ) (lo hi : ℕ) : ℕ :=
  bisectGo a x (hi - lo) lo hi

/-- `RedshiftCalculator._interpolate(x0, x, y)` (redshift.py lines 17–22):
`i = bisect(x, x0, 1, len(x)-1); m = (x0 - x[i-1]) / (x[i] - x[i-1]);
return m*y[i] + (1.-m)*y[i-1]`. -/
def interpolate (x0 : ℚ) (x y : List ℚ) : ℚ :=
  let i := bisect x x0 1 (x.length - 1)
  let m := (x0 - x.getD (i - 1) 0) / (x.getD i 0 - x.getD (i - 1) 0)
  m * y.getD i 0 + (1 - m) * y.getD (i - 1) 0

/-- The constructed `RedshiftCalculator`: the three lists as stored in
`self.time`, `self.colortemp`, `self.brightness` after normalization. -/
structure Calc where
  time : List ℚ
  colortemp : List ℚ
  brightness : List ℚ
  deriving DecidableEq, Repr

/-- `RedshiftCalculator.__init__(time, colortemp, brightness)`
(redshift.py lines 24–45), with every Python error path mapped to `none`:
* `min(time)` / `max(time)` raise `ValueError` on an empty `time`;
* the three `assert`s require `min(time) ≥ 0` (i.e. every element ≥ 0),
  `max(time) ≤ 24`, and `time` strictly increasing;
* `colortemp[0]`/`colortemp[-1]` and `brightness[0]`/`brightness[-1]`
  raise `IndexError` when the respective list is empty.
No length-equality check exists in the source.  `time[-1]` tested by the
second `if` is unchanged by the first `insert(0, ...)`, so it is `lt`. -/
def pyInit (time colortemp brightness : List ℚ) : Option Calc :=
  match time, colortemp, brightness with
  | t0 :: ts, c0 :: cs, b0 :: bs =>
    if (∀ v ∈ t0 :: ts, 0 ≤ v) ∧ (∀ v ∈ t0 :: ts, v ≤ 24) ∧
       List.Chain' (· < ·) (t0 :: ts) then
      let lt := (t0 :: ts).getLastD 0
      let lc := (c0 :: cs).getLastD 0
      let lb := (b0 :: bs).getLastD 0
      let time1 := if 0 < t0 then (lt - 24) :: t0 :: ts else t0 :: ts
      let ct1 := if 0 < t0 then lc :: c0 :: cs else c0 :: cs
      let bt1 := if 0 < t0 then lb :: b0 :: bs else b0 :: bs
      let time2 := if lt < 24 then time1 ++ [t0 + 24] else time1
      let ct2 := if lt < 24 then ct1 ++ [c0] else ct1
      let bt2 := if lt < 24 then bt1 ++ [b0] else bt1
      some ⟨time2, ct2, bt2⟩
    else none
  | _, _, _ => none

/-- `RedshiftCalculator.__call__` evaluated at a given hour-of-day
(the Python code derives `hour` from the wall clock): the pair
`(brightness, colortemp)` of the returned dictionary. -/
def callCalc (c : Calc) (hour : ℚ) : ℚ × ℚ :=
  (interpolate hour c.time c.brightness, interpolate hour c.time c.colortemp)

/-! ### List index helpers -/

theorem getLastD_eq_getD_pred :
    ∀ (l : List ℚ), l ≠ [] → ∀ d, l.getLastD d = l.getD (l.length - 1) 0
  | [], h, _ => absurd rfl h
  | [a], _, _ => rfl
  | a :: b :: t, _, d => by
    have ih := getLastD_eq_getD_pred (b :: t) (by simp) a
    simpa [List.getLastD, List.length_cons] using ih

theorem getD_mem (l : List ℚ) (n : ℕ) (hn : n < l.length) : l.getD n 0 ∈ l := by
  rw [List.getD_eq_getElem _ _ hn]
  exact l.getElem_mem hn

/-- Strict monotonicity of a `Chain' (· < ·)` list, in `getD` form. -/
theorem chain'_getD_lt (l : List ℚ) (hl : List.Chain' (· < ·) l)
    {i j : ℕ} (hij : i < j) (hj : j < l.length) :
    l.getD i 0 < l.getD j 0 := by
  have hp : List.Pairwise (· < ·) l := List.chain'_iff_pairwise.mp hl
  have hi : i < l.length := lt_trans hij hj
  rw [List.getD_eq_getElem _ _ hi, List.getD_eq_getElem _ _ hj]
  exact List.pairwise_iff_get.mp hp ⟨i, hi⟩ ⟨j, hj⟩ hij

theorem chain'_getD_le (l : List ℚ) (hl : List.Chain' (· < ·) l)
    {i j : ℕ} (hij : i ≤ j) (hj : j < l.length) :
    l.getD i 0 ≤ l.getD j 0 := by
  rcases Nat.eq_or_lt_of_le hij with rfl | hlt
  · exact le_refl _
  · exact le_of_lt (chain'_getD_lt l hl hlt hj)

/-! ### The binary search -/

/-- Invariant of the `bisect_right` loop: starting from a window
`[lo, hi]` with `a[lo-1] ≤ x < a[hi]`, enough fuel yields an index `i`
in `[lo, hi]` with `a[i-1] ≤ x < a[i]`.  No sortedness is needed. -/
theorem bisectGo_spec (a : List ℚ) (x : ℚ) :
    ∀ (fuel lo hi : ℕ), hi - lo ≤ fuel → 1 ≤ lo → lo ≤ hi →
      a.getD (lo - 1) 0 ≤ x → x < a.getD hi 0 →
      lo ≤ bisectGo a x fuel lo hi ∧ bisectGo a x fuel lo hi ≤ hi ∧
      a.getD (bisectGo a x fuel lo hi - 1) 0 ≤ x ∧
      x < a.getD (bisectGo a x fuel lo hi) 0 := by
  intro fuel
  induction fuel with
  | zero =>
    intro lo hi hfuel h1 hle hlb hub
    have : lo = hi := by omega
    subst this
    simp only [bisectGo]
    exact ⟨le_refl _, le_refl _, hlb, hub⟩
  | succ fuel ih =>
    intro lo hi hfuel h1 hle hlb hub
    by_cases hlh : lo < hi
    · simp only [bisectGo, if_pos hlh]
      by_cases hmid : x < a.getD ((lo + hi) / 2) 0
      · simp only [if_pos hmid]
        have h := ih lo ((lo + hi) / 2) (by omega) h1 (by omega) hlb hmid
        exact ⟨h.1, by omega, h.2.2.1, h.2.2.2⟩
      · simp only [if_neg hmid]
        have hx : a.getD ((lo + hi) / 2 + 1 - 1) 0 ≤ x := by
          simpa using le_of_not_lt hmid
        have h := ih ((lo + hi) / 2 + 1) hi (by omega) (by omega) (by omega) hx hub
        exact ⟨by omega, h.2.1, h.2.2.1, h.2.2.2⟩
    · simp only [bisectGo, if_neg hlh]
      have : lo = hi := by omega
      subst this
      exact ⟨le_refl _, le_refl _, hlb, hub⟩

/-- The window and bracketing property of `bisect(a, x, lo, hi)`. -/
theorem bisect_spec (a : List ℚ) (x : ℚ) (lo hi : ℕ)
    (h1 : 1 ≤ lo) (hle : lo ≤ hi)
    (hlb : a.getD (lo - 1) 0 ≤ x) (hub : x < a.getD hi 0) :
    lo ≤ bisect a x lo hi ∧ bisect a x lo hi ≤ hi ∧
    a.getD (bisect a x lo hi - 1) 0 ≤ x ∧ x < a.getD (bisect a x lo hi) 0 :=
  bisectGo_spec a x (hi - lo) lo hi (le_refl _) h1 hle hlb hub

/-! ### Structure of a successful construction -/

/-- A successful `RedshiftCalculator.__init__` stores the input lists with
a virtual first anchor (when `time[0] > 0`) and a virtual last anchor
(when `time[-1] < 24`), and certifies the three `assert`ed conditions. -/
theorem pyInit_decomp (time ct bt : List ℚ) (c : Calc)
    (h : pyInit time ct bt = some c) :
    time ≠ [] ∧ ct ≠ [] ∧ bt ≠ [] ∧
    (∀ v ∈ time, 0 ≤ v) ∧ (∀ v ∈ time, v ≤ 24) ∧ List.Chain' (· < ·) time ∧
    c.time = (if 0 < time.getD 0 0 then [time.getLastD 0 - 24] else []) ++ time ++
             (if time.getLastD 0 < 24 then [time.getD 0 0 + 24] else []) ∧
    c.colortemp = (if 0 < time.getD 0 0 then [ct.getLastD 0] else []) ++ ct ++
             (if time.getLastD 0 < 24 then [ct.getD 0 0] else []) ∧
    c.brightness = (if 0 < time.getD 0 0 then [bt.getLastD 0] else []) ++ bt ++
             (if time.getLastD 0 < 24 then [bt.getD 0 0] else []) := by
  cases time with
  | nil => simp [pyInit] at h
  | cons t0 ts =>
    cases ct with
    | nil => simp [pyInit] at h
    | cons c0 cs =>
      cases bt with
      | nil => simp [pyInit] at h
      | cons b0 bs =>
        simp only [pyInit] at h
        split at h
        case isTrue hcond =>
          injection h with h'
          subst h'
          refine ⟨by simp, by simp, by simp, hcond.1, hcond.2.1, hcond.2.2, ?_, ?_, ?_⟩ <;>
            by_cases h1 : 0 < t0 <;>
              by_cases h2 : (t0 :: ts).getLast?.getD 0 < 24 <;>
                simp [h1, h2, List.getLastD_eq_getLast?]
        case isFalse => exact absurd h (by simp)

theorem mem_some_eq {x v : ℚ} (h : x ∈ some v) : x = v :=
  (Option.some.inj h).symm

/-- Facts about the normalized time sequence: at least two entries,
strictly increasing, first entry `≤ 0`, last entry `≥ 24`. -/
theorem normTime_facts (time ct bt : List ℚ) (c : Calc)
    (h : pyInit time ct bt = some c) :
    2 ≤ c.time.length ∧ List.Chain' (· < ·) c.time ∧
    c.time.getD 0 0 ≤ 0 ∧ 24 ≤ c.time.getD (c.time.length - 1) 0 := by
  obtain ⟨ht, -, -, h0, h24, hch, htime, -, -⟩ := pyInit_decomp time ct bt c h
  have hlen : 0 < time.length := List.length_pos.mpr ht
  have ht0mem : time.getD 0 0 ∈ time := getD_mem time 0 hlen
  have hltmem : time.getLastD 0 ∈ time := by
    rw [getLastD_eq_getD_pred time ht]
    exact getD_mem time _ (by omega)
  have ht0le : time.getD 0 0 ≤ 24 := h24 _ ht0mem
  have ht0ge : 0 ≤ time.getD 0 0 := h0 _ ht0mem
  have hltle : time.getLastD 0 ≤ 24 := h24 _ hltmem
  have hltge : 0 ≤ time.getLastD 0 := h0 _ hltmem
  have hlast? : time.getLast? = some (time.getLastD 0) := by
    cases time with
    | nil => exact absurd rfl ht
    | cons a l =>
      cases hq : (a :: l).getLast? with
      | none => simp [List.getLast?_eq_none_iff] at hq
      | some v => simp [List.getLastD_eq_getLast?, hq]
  have hhead? : time.head? = some (time.getD 0 0) := by
    cases time with
    | nil => exact absurd rfl ht
    | cons a l => simp
  have hlastD : time.getD (time.length - 1) 0 = time.getLastD 0 :=
    (getLastD_eq_getD_pred time ht 0).symm
  by_cases h1 : 0 < time.getD 0 0 <;> by_cases h2 : time.getLastD 0 < 24
  · -- virtual first and virtual last anchor
    rw [if_pos h1, if_pos h2] at htime
    rw [htime]
    refine ⟨?_, ?_, ?_, ?_⟩
    · simp only [List.length_append, List.length_singleton]
      omega
    · rw [List.chain'_append]
      refine ⟨?_, List.chain'_singleton _, ?_⟩
      · rw [List.chain'_append]
        refine ⟨List.chain'_singleton _, hch, ?_⟩
        intro x hx y hy
        have hx' : x = time.getLastD 0 - 24 := mem_some_eq hx
        have hy' : y = time.getD 0 0 := by
          rw [hhead?] at hy
          exact mem_some_eq hy
        rw [hx', hy']
        linarith
      · intro x hx y hy
        rw [List.getLast?_append, hlast?] at hx
        have hx' : x = time.getLastD 0 := mem_some_eq hx
        have hy' : y = time.getD 0 0 + 24 := mem_some_eq hy
        rw [hx', hy']
        linarith
    · rw [List.append_assoc, List.getD_append _ _ _ _ (by simp),
        List.getD_cons_zero]
      linarith
    · have hl : ([time.getLastD 0 - 24] ++ time ++ [time.getD 0 0 + 24]).length
          = time.length + 2 := by
        simp only [List.length_append, List.length_singleton]
        omega
      rw [hl]
      have h2l : ([time.getLastD 0 - 24] ++ time).length ≤ time.length + 2 - 1 := by
        simp only [List.length_append, List.length_singleton]
        omega
      rw [List.getD_append_right _ _ _ _ h2l]
      simp only [List.length_append, List.length_singleton]
      have he : time.length + 2 - 1 - (1 + time.length) = 0 := by omega
      rw [he, List.getD_cons_zero]
      linarith
  · -- virtual first anchor only (time[-1] = 24)
    rw [if_pos h1, if_neg h2, List.append_nil] at htime
    rw [htime]
    refine ⟨?_, ?_, ?_, ?_⟩
    · simp only [List.length_append, List.length_singleton]
      omega
    · rw [List.chain'_append]
      refine ⟨List.chain'_singleton _, hch, ?_⟩
      intro x hx y hy
      have hx' : x = time.getLastD 0 - 24 := mem_some_eq hx
      have hy' : y = time.getD 0 0 := by
        rw [hhead?] at hy
        exact mem_some_eq hy
      rw [hx', hy']
      linarith
    · rw [List.getD_append _ _ _ _ (by simp), List.getD_cons_zero]
      linarith
    · have hl : ([time.getLastD 0 - 24] ++ time).length = time.length + 1 := by
        simp only [List.length_append, List.length_singleton]
        omega
      rw [hl]
      have h2l : ([time.getLastD 0 - 24] : List ℚ).length ≤ time.length + 1 - 1 := by
        simp only [List.length_singleton]
        omega
      rw [List.getD_append_right _ _ _ _ h2l]
      simp only [List.length_singleton]
      have he : time.length + 1 - 1 - 1 = time.length - 1 := by omega
      rw [he, hlastD]
      linarith
  · -- virtual last anchor only (time[0] = 0)
    rw [if_neg h1, if_pos h2, List.nil_append] at htime
    rw [htime]
    refine ⟨?_, ?_, ?_, ?_⟩
    · simp only [List.length_append, List.length_singleton]
      omega
    · rw [List.chain'_append]
      refine ⟨hch, List.chain'_singleton _, ?_⟩
      intro x hx y hy
      rw [hlast?] at hx
      have hx' : x = time.getLastD 0 := mem_some_eq hx
      have hy' : y = time.getD 0 0 + 24 := mem_some_eq hy
      rw [hx', hy']
      linarith
    · rw [List.getD_append _ _ _ _ hlen]
      linarith
    · have hl : (time ++ [time.getD 0 0 + 24]).length = time.length + 1 := by
        simp only [List.length_append, List.length_singleton]
      rw [hl]
      have h2l : time.length ≤ time.length + 1 - 1 := by omega
      rw [List.getD_append_right _ _ _ _ h2l]
      have he : time.length + 1 - 1 - time.length = 0 := by omega
      rw [he, List.getD_cons_zero]
      linarith
  · -- no virtual anchors (time[0] = 0 and time[-1] = 24)
    rw [if_neg h1, if_neg h2, List.nil_append, List.append_nil] at htime
    rw [htime]
    have h0eq : time.getD 0 0 = 0 := by linarith
    have hlteq : time.getLastD 0 = 24 := by linarith
    have hlen2 : 2 ≤ time.length := by
      by_contra hcon
      have hone : time.length = 1 := by omega
      have hsame : time.getD 0 0 = time.getLastD 0 := by
        rw [← hlastD, hone]
      rw [h0eq, hlteq] at hsame
      norm_num at hsame
    exact ⟨hlen2, hch, by linarith, by rw [hlastD]; linarith⟩

/-- Where each original anchor lands in the normalized lists: position
`k + off` with `off = 1` exactly when a virtual first anchor was
prepended; and the length of the normalized time list. -/
theorem norm_getD_map (time ct bt : List ℚ) (c : Calc)
    (h : pyInit time ct bt = some c)
    (hl1 : ct.length = time.length) (hl2 : bt.length = time.length)
    (off : ℕ) (hoff : off = if 0 < time.getD 0 0 then 1 else 0) :
    (∀ k, k < time.length →
      c.time.getD (k + off) 0 = time.getD k 0 ∧
      c.colortemp.getD (k + off) 0 = ct.getD k 0 ∧
      c.brightness.getD (k + off) 0 = bt.getD k 0) ∧
    c.time.length = off + time.length + (if time.getLastD 0 < 24 then 1 else 0) := by
  obtain ⟨ht, hc, hb, -, -, -, htime, hct, hbt⟩ := pyInit_decomp time ct bt c h
  by_cases h1 : 0 < time.getD 0 0 <;> by_cases h2 : time.getLastD 0 < 24
  · rw [if_pos h1, if_pos h2] at htime hct hbt
    rw [List.append_assoc] at htime hct hbt
    rw [if_pos h1] at hoff
    rw [if_pos h2]
    subst hoff
    refine ⟨?_, ?_⟩
    · intro k hk
      rw [htime, hct, hbt]
      simp only [List.singleton_append, List.getD_cons_succ]
      exact ⟨List.getD_append _ _ _ _ hk,
             List.getD_append _ _ _ _ (by omega),
             List.getD_append _ _ _ _ (by omega)⟩
    · rw [htime]
      simp only [List.singleton_append, List.length_cons, List.length_append,
        List.length_singleton, List.length_nil]
      omega
  · rw [if_pos h1, if_neg h2] at htime hct hbt
    rw [List.append_nil] at htime hct hbt
    rw [if_pos h1] at hoff
    rw [if_neg h2]
    subst hoff
    refine ⟨?_, ?_⟩
    · intro k hk
      rw [htime, hct, hbt]
      simp only [List.singleton_append, List.getD_cons_succ]
      exact ⟨trivial, trivial, trivial⟩
    · rw [htime]
      simp only [List.singleton_append, List.length_cons]
      omega
  · rw [if_neg h1, if_pos h2] at htime hct hbt
    rw [List.nil_append] at htime hct hbt
    rw [if_neg h1] at hoff
    rw [if_pos h2]
    subst hoff
    refine ⟨?_, ?_⟩
    · intro k hk
      rw [htime, hct, hbt]
      simp only [Nat.add_zero]
      exact ⟨List.getD_append _ _ _ _ hk,
             List.getD_append _ _ _ _ (by omega),
             List.getD_append _ _ _ _ (by omega)⟩
    · rw [htime]
      simp only [List.length_append, List.length_singleton]
      omega
  · rw [if_neg h1, if_neg h2] at htime hct hbt
    rw [List.nil_append, List.append_nil] at htime hct hbt
    rw [if_neg h1] at hoff
    rw [if_neg h2]
    subst hoff
    refine ⟨?_, ?_⟩
    · intro k hk
      rw [htime, hct, hbt]
      simp only [Nat.add_zero]
      exact ⟨trivial, trivial, trivial⟩
    · rw [htime]
      omega

/-- On a strictly increasing list there is only one index bracketing `x`. -/
theorem bracket_uniq (a : List ℚ) (x : ℚ) (hs : List.Chain' (· < ·) a)
    {i j : ℕ} (h1i : 1 ≤ i) (hil : i < a.length) (h1j : 1 ≤ j) (hjl : j < a.length)
    (hi1 : a.getD (i - 1) 0 ≤ x) (hi2 : x < a.getD i 0)
    (hj1 : a.getD (j - 1) 0 ≤ x) (hj2 : x < a.getD j 0) : i = j := by
  rcases lt_trichotomy i j with hlt | heq | hgt
  · exfalso
    have : a.getD i 0 ≤ a.getD (j - 1) 0 :=
      chain'_getD_le a hs (by omega) (by omega)
    linarith
  · exact heq
  · exfalso
    have : a.getD j 0 ≤ a.getD (i - 1) 0 :=
      chain'_getD_le a hs (by omega) (by omega)
    linarith

/-- Evaluating `_interpolate` exactly at a non-final element of a strictly
increasing `x` returns the matching `y` value: the chosen interval is the
one starting at that element, the fraction `m` vanishes, and the result is
`y[j]`. -/
theorem interpolate_anchor (x y : List ℚ) (j : ℕ)
    (hch : List.Chain' (· < ·) x) (hj : j + 1 < x.length) :
    interpolate (x.getD j 0) x y = y.getD j 0 := by
  have hlb : x.getD 0 0 ≤ x.getD j 0 :=
    chain'_getD_le x hch (Nat.zero_le j) (by omega)
  have hub : x.getD j 0 < x.getD (x.length - 1) 0 := by
    rcases Nat.lt_or_ge j (x.length - 1) with hlt | hge
    · exact chain'_getD_lt x hch hlt (by omega)
    · omega
  obtain ⟨hi1, hi2, hi3, hi4⟩ :=
    bisect_spec x (x.getD j 0) 1 (x.length - 1) (le_refl 1) (by omega) hlb hub
  have hieq : bisect x (x.getD j 0) 1 (x.length - 1) = j + 1 := by
    refine bracket_uniq x (x.getD j 0) hch hi1 (by omega) (by omega) hj hi3 hi4 ?_ ?_
    · simp
    · exact chain'_getD_lt x hch (by omega) hj
  simp only [interpolate]
  rw [hieq]
  simp only [Nat.add_sub_cancel, sub_self, zero_div, zero_mul, sub_zero,
    one_mul, zero_add]

/-! ### Registry lemmas -/

theorem regFind_setdefault (reg : Reg) (t : String) (d v : LightState)
    (h : regFind reg t = some v) : setdefault reg t d = (reg, v) := by
  simp [setdefault, h]

theorem regFind_regSetOn (reg : Reg) (t : String) (b : Bool) :
    regFind (regSetOn reg t b) t =
      (regFind reg t).map (fun v => ⟨b, v.changed⟩) := by
  induction reg with
  | nil => rfl
  | cons e rest ih =>
    obtain ⟨k, v⟩ := e
    by_cases hk : k = t <;> simp [regSetOn, regFind, hk, ih]

theorem regFind_regSetChanged (reg : Reg) (t : String) (c : ℚ) :
    regFind (regSetChanged reg t c) t =
      (regFind reg t).map (fun v => ⟨v.onFlag, c⟩) := by
  induction reg with
  | nil => rfl
  | cons e rest ih =>
    obtain ⟨k, v⟩ := e
    by_cases hk : k = t <;> simp [regSetChanged, regFind, hk, ih]

theorem regFind_append_ne (reg : Reg) (t t2 : String) (d : LightState)
    (h : t2 ≠ t) : regFind (reg ++ [(t, d)]) t2 = regFind reg t2 := by
  induction reg with
  | nil =>
    simp only [List.nil_append, regFind]
    rw [if_neg (fun hh => h hh.symm)]
  | cons e rest ih =>
    obtain ⟨k, v⟩ := e
    by_cases hk : k = t2 <;> simp [regFind, hk, ih]

theorem regFind_append_self (reg : Reg) (t : String) (d : LightState)
    (h : regFind reg t = none) : regFind (reg ++ [(t, d)]) t = some d := by
  induction reg with
  | nil => simp [regFind]
  | cons e rest ih =>
    obtain ⟨k, v⟩ := e
    by_cases hk : k = t
    · rw [hk] at h
      simp [regFind] at h
    · simp only [regFind, hk, if_false, List.cons_append] at h ⊢
      exact ih h

/-! ### C1: the event reactor's push decision -/

/-- C1.  For a tracked light `topic` with stored state `old` receiving an
event carrying on-flag `b`: an off→on transition publishes exactly once to
`topic ++ "/set"` for every `adjust`; an already-on light updated less
than `adjust` ago yields no publish; an already-on light updated more than
`adjust` ago publishes exactly once and stamps `changed := now`; and in
every case the stored on-flag becomes `b` after the push decision. -/
theorem onMessage_eventReactor (reg : Reg) (topic : String) (old : LightState)
    (b : Bool) (now adjust : ℚ) (hfind : regFind reg topic = some old) :
    (old.onFlag = false → b = true →
      (on_message reg topic (.parsed (some b)) now adjust).2 = [topic ++ "/set"]) ∧
    (old.onFlag = true → b = true → now - old.changed < adjust →
      (on_message reg topic (.parsed (some b)) now adjust).2 = []) ∧
    (old.onFlag = true → b = true → now - old.changed > adjust →
      (on_message reg topic (.parsed (some b)) now adjust).2 = [topic ++ "/set"] ∧
      regFind (on_message reg topic (.parsed (some b)) now adjust).1 topic =
        some ⟨true, now⟩) ∧
    Option.map LightState.onFlag
      (regFind (on_message reg topic (.parsed (some b)) now adjust).1 topic) =
      some b := by
  have hsd : setdefault reg topic defaultLight = (reg, old) :=
    regFind_setdefault reg topic defaultLight old hfind
  simp only [on_message, hsd]
  refine ⟨?_, ?_, ?_, ?_⟩
  · intro h1 h2
    rw [if_pos ⟨h2, Or.inl ⟨h2, h1⟩⟩]
  · intro h1 h2 h3
    rw [if_neg]
    rintro ⟨-, hor⟩
    rcases hor with ⟨-, hoff⟩ | hgt
    · rw [h1] at hoff
      exact Bool.noConfusion hoff
    · linarith
  · intro h1 h2 h3
    rw [if_pos ⟨h2, Or.inr h3⟩]
    refine ⟨rfl, ?_⟩
    rw [regFind_regSetOn, regFind_regSetChanged, hfind]
    simp [h2]
  · by_cases hcond :
      b = true ∧ ((b = true ∧ old.onFlag = false) ∨ now - old.changed > adjust)
    · rw [if_pos hcond, regFind_regSetOn, regFind_regSetChanged, hfind]
      simp
    · rw [if_neg hcond, regFind_regSetOn, hfind]
      simp

/-- C1 witness: a light stored as off receiving an on event publishes
exactly once. -/
theorem onMessage_eventReactor_witness :
    (on_message [("kitchen", ⟨false, 0⟩)] "kitchen" (.parsed (some true)) 10 3600).2 =
      ["kitchen" ++ "/set"] :=
  (onMessage_eventReactor [("kitchen", ⟨false, 0⟩)] "kitchen" ⟨false, 0⟩ true 10 3600
    (by simp [regFind])).1 rfl rfl

/-! ### C4: malformed events -/

/-- C4 counterexample.  An event whose payload parses but lacks the `on`
field does mutate the registry: `lights.setdefault` has already inserted
the default entry for the topic when `new_state['on']` raises. -/
theorem onMessage_malformed_cex :
    (on_message [] "kitchen" (.parsed none) 0 3600).1 = [("kitchen", defaultLight)] ∧
    (on_message [] "kitchen" (.parsed none) 0 3600).1 ≠ [] := by
  constructor <;> simp [on_message, setdefault, regFind]

/-- C4 amended.  A missing payload or a JSON parse failure leaves the
registry unchanged and publishes nothing; a parsed object lacking `on`
publishes nothing, leaves every other topic unchanged, and leaves the
event topic at its previous state (creating the default entry when the
topic was unknown).  The handler is a total function: it never crashes
and later events are processed from the resulting registry. -/
theorem onMessage_malformed (reg : Reg) (topic : String) (now adjust : ℚ) :
    on_message reg topic .missing now adjust = (reg, []) ∧
    on_message reg topic .malformed now adjust = (reg, []) ∧
    (on_message reg topic (.parsed none) now adjust).2 = [] ∧
    (∀ t2, t2 ≠ topic →
      regFind (on_message reg topic (.parsed none) now adjust).1 t2 =
        regFind reg t2) ∧
    regFind (on_message reg topic (.parsed none) now adjust).1 topic =
      some ((regFind reg topic).getD defaultLight) := by
  refine ⟨rfl, rfl, rfl, ?_, ?_⟩ <;> simp only [on_message, setdefault]
  · intro t2 ht2
    cases hf : regFind reg topic with
    | some v => simp [hf]
    | none => simp [hf, regFind_append_ne reg topic t2 defaultLight ht2]
  · cases hf : regFind reg topic with
    | some v => simp [hf]
    | none => simp [hf, regFind_append_self reg topic defaultLight hf]

/-- C4 witness: a lacking-`on` event for an unknown topic leaves a
different tracked light untouched. -/
theorem onMessage_malformed_witness :
    regFind (on_message [("x", ⟨true, 5⟩)] "kitchen" (.parsed none) 0 0).1 "x" =
      regFind [("x", ⟨true, 5⟩)] "x" :=
  (onMessage_malformed [("x", ⟨true, 5⟩)] "kitchen" 0 0).2.2.2.1 "x" (by decide)

/-! ### C2, C9: sweep loop timing and throttling -/

theorem loopState_fst (wc : ℕ) (adjust : ℚ) (nows : ℕ → ℚ) (reg0 : Reg) :
    ∀ n, (loopState wc adjust nows reg0 n).1 = waitBefore wc n := by
  intro n
  induction n with
  | zero => rfl
  | succ n ih =>
    have hwb : waitBefore wc (n + 1) =
        if waitBefore wc n = 0 then wc else waitBefore wc n - 1 := rfl
    rw [hwb, ← ih]
    simp only [loopState, tick]
    by_cases h : (loopState wc adjust nows reg0 n).1 = 0
    · rw [if_pos h, if_pos h]
    · rw [if_neg h, if_neg h]

theorem waitBefore_three (k : ℕ) : waitBefore 3 k = 3 - k % 4 := by
  induction k with
  | zero => rfl
  | succ k ih =>
    have h4 : k % 4 < 4 := Nat.mod_lt _ (by norm_num)
    show (if waitBefore 3 k = 0 then 3 else waitBefore 3 k - 1) = 3 - (k + 1) % 4
    rw [ih]
    by_cases h : 3 - k % 4 = 0
    · rw [if_pos h]
      omega
    · rw [if_neg h]
      omega

/-- C2 counterexample.  With `UpdateCycles = 3` the loop enters the body
with `wait = 3` and decrements on each of the first three ticks, so tick 3
performs no sweep even with a stale light waiting, and the first sweep
(and publish) happens on tick 4. -/
theorem sweepTiming_cex :
    sweepsAt 3 0 (fun _ => 0) [("a", ⟨true, -10⟩)] 3 = false ∧
    pubsOnTick 3 0 (fun _ => 0) [("a", ⟨true, -10⟩)] 3 = [] ∧
    sweepsAt 3 0 (fun _ => 0) [("a", ⟨true, -10⟩)] 4 = true ∧
    pubsOnTick 3 0 (fun _ => 0) [("a", ⟨true, -10⟩)] 4 = ["a" ++ "/set"] := by
  refine ⟨rfl, rfl, rfl, ?_⟩
  have h3 : loopState 3 0 (fun _ => 0) [("a", ⟨true, -10⟩)] 3 =
      (0, [("a", ⟨true, -10⟩)]) := rfl
  show (tick 3 (loopState 3 0 (fun _ => 0) [("a", ⟨true, -10⟩)] (4 - 1))
      ((fun _ => 0) (4 - 1)) 0).2 = ["a" ++ "/set"]
  rw [show (4 : ℕ) - 1 = 3 from rfl, h3]
  simp only [tick, if_true]
  simp only [sweepScan]
  rw [if_pos (by norm_num)]

/-- C2 amended.  With `UpdateCycles = 3` the `n`-th tick of the main loop
performs a sweep exactly when `n` is divisible by `4 = UpdateCycles + 1`
(ticks 4, 8, 12, …), and every other tick publishes nothing. -/
theorem sweepTiming (adjust : ℚ) (nows : ℕ → ℚ) (reg0 : Reg) (n : ℕ)
    (hn : 1 ≤ n) :
    (sweepsAt 3 adjust nows reg0 n = true ↔ n % 4 = 0) ∧
    (¬ n % 4 = 0 → pubsOnTick 3 adjust nows reg0 n = []) := by
  have hfst := loopState_fst 3 adjust nows reg0 (n - 1)
  have hw := waitBefore_three (n - 1)
  constructor
  · simp only [sweepsAt, decide_eq_true_eq]
    rw [hfst, hw]
    omega
  · intro hmod
    have hne : (loopState 3 adjust nows reg0 (n - 1)).1 ≠ 0 := by
      rw [hfst, hw]
      omega
    simp only [pubsOnTick, tick]
    rw [if_neg hne]

/-- C2 witness: tick 8 does sweep. -/
theorem sweepTiming_witness : sweepsAt 3 0 (fun _ => 0) [] 8 = true :=
  ((sweepTiming 0 (fun _ => 0) [] 8 (by norm_num)).1).mpr (by norm_num)

/-- C9.  On a sweeping tick: at most one topic is published; the wait
counter is reset to `wait_cycles` no matter what the registry holds; a
registry with no stale entry is left unchanged with no publish; and when
`j` is the first stale index, exactly that light is published and exactly
its `changed` field is stamped. -/
theorem sweep_throttle (reg : Reg) (now adjust : ℚ) (waitCycles : ℕ) :
    (sweepScan reg now adjust).2.length ≤ 1 ∧
    (tick waitCycles (0, reg) now adjust).1.1 = waitCycles ∧
    ((∀ e ∈ reg, ¬ now - e.2.changed > adjust) →
      sweepScan reg now adjust = (reg, [])) ∧
    (∀ j, j < reg.length →
      (∀ k, k < j → ¬ now - (reg.getD k ("", defaultLight)).2.changed > adjust) →
      now - (reg.getD j ("", defaultLight)).2.changed > adjust →
      sweepScan reg now adjust =
        (reg.set j ((reg.getD j ("", defaultLight)).1,
            ⟨(reg.getD j ("", defaultLight)).2.onFlag, now⟩),
         [(reg.getD j ("", defaultLight)).1 ++ "/set"])) := by
  refine ⟨?_, ?_, ?_, ?_⟩
  · induction reg with
    | nil => simp [sweepScan]
    | cons e rest ih =>
      obtain ⟨path, light⟩ := e
      by_cases hs : now - light.changed > adjust
      · simp [sweepScan, hs]
      · simp only [sweepScan, if_neg hs]
        exact ih
  · simp [tick]
  · intro hall
    induction reg with
    | nil => rfl
    | cons e rest ih =>
      obtain ⟨path, light⟩ := e
      have hhead : ¬ now - light.changed > adjust := hall (path, light) (by simp)
      have hrest := ih (fun e he => hall e (List.mem_cons_of_mem _ he))
      simp only [sweepScan, if_neg hhead, hrest]
  · induction reg with
    | nil =>
      intro j hj
      exact absurd hj (by simp)
    | cons e rest ih =>
      obtain ⟨path, light⟩ := e
      intro j hj hfirst hstale
      cases j with
      | zero =>
        simp only [List.getD_cons_zero] at hstale ⊢
        simp only [sweepScan, if_pos hstale]
        rfl
      | succ j =>
        have hhead : ¬ now - light.changed > adjust := by
          have := hfirst 0 (Nat.succ_pos j)
          simpa using this
        have hrest := ih j (by simpa using hj)
          (fun k hk => by
            have := hfirst (k + 1) (by omega)
            simpa using this)
          (by simpa using hstale)
        simp only [sweepScan, if_neg hhead, hrest, List.getD_cons_succ,
          List.set_cons_succ]

/-- C9 witness: with two stale lights only the first is refreshed and
published. -/
theorem sweep_throttle_witness :
    sweepScan [("a", ⟨true, 0⟩), ("b", ⟨true, 0⟩)] 10 5 =
      ([("a", ⟨true, 10⟩), ("b", ⟨true, 0⟩)], ["a" ++ "/set"]) := by
  have h := (sweep_throttle [("a", ⟨true, 0⟩), ("b", ⟨true, 0⟩)] 10 5 0).2.2.2
    0 (by norm_num) (fun k hk => absurd hk (by omega)) (by norm_num)
  simpa using h

/-! ### Concrete constructions used by witnesses and counterexamples -/

theorem pyInit_ex1 :
    pyInit [6, 22] [2700, 6500] [1/5, 1] =
      some ⟨[22 - 24, 6, 22, 6 + 24], [6500, 2700, 6500, 2700],
            [1, 1/5, 1, 1/5]⟩ := by
  have hcond : (∀ v ∈ ([6, 22] : List ℚ), 0 ≤ v) ∧
      (∀ v ∈ ([6, 22] : List ℚ), v ≤ 24) ∧
      List.Chain' (· < ·) ([6, 22] : List ℚ) := by
    refine ⟨?_, ?_, ?_⟩ <;>
      norm_num [List.forall_mem_cons, List.chain'_cons, List.chain'_singleton]
  simp only [pyInit]
  rw [if_pos hcond]
  rfl

theorem pyInit_ex2 :
    pyInit [6, 12, 22] [2700, 4000, 6500] [1/5, 1/2, 1] =
      some ⟨[22 - 24, 6, 12, 22, 6 + 24], [6500, 2700, 4000, 6500, 2700],
            [1, 1/5, 1/2, 1, 1/5]⟩ := by
  have hcond : (∀ v ∈ ([6, 12, 22] : List ℚ), 0 ≤ v) ∧
      (∀ v ∈ ([6, 12, 22] : List ℚ), v ≤ 24) ∧
      List.Chain' (· < ·) ([6, 12, 22] : List ℚ) := by
    refine ⟨?_, ?_, ?_⟩ <;>
      norm_num [List.forall_mem_cons, List.chain'_cons, List.chain'_singleton]
  simp only [pyInit]
  rw [if_pos hcond]
  rfl

theorem pyInit_ex3 :
    pyInit [0, 24] [5, 5] [7, 7] = some ⟨[0, 24], [5, 5], [7, 7]⟩ := by
  have hcond : (∀ v ∈ ([0, 24] : List ℚ), 0 ≤ v) ∧
      (∀ v ∈ ([0, 24] : List ℚ), v ≤ 24) ∧
      List.Chain' (· < ·) ([0, 24] : List ℚ) := by
    refine ⟨?_, ?_, ?_⟩ <;>
      norm_num [List.forall_mem_cons, List.chain'_cons, List.chain'_singleton]
  simp only [pyInit]
  rw [if_pos hcond]
  rfl

/-! ### C3: construction validation -/

/-- C3 counterexample.  `RedshiftCalculator.__init__` never compares the
lengths of the three lists: with `time` of length 2 and `colortemp` of
length 3 the constructor succeeds, while the claim requires it to fail. -/
theorem pyInit_unequal_cex :
    (pyInit [6, 22] [2700, 6500, 7000] [1/5, 1]).isSome = true := by
  have hcond : (∀ v ∈ ([6, 22] : List ℚ), 0 ≤ v) ∧
      (∀ v ∈ ([6, 22] : List ℚ), v ≤ 24) ∧
      List.Chain' (· < ·) ([6, 22] : List ℚ) := by
    refine ⟨?_, ?_, ?_⟩ <;>
      norm_num [List.forall_mem_cons, List.chain'_cons, List.chain'_singleton]
  simp only [pyInit]
  rw [if_pos hcond]
  rfl

/-- C3 amended.  Construction succeeds exactly when the three lists are
nonempty, every time value lies in `[0, 24]`, and the time values are
strictly increasing; unequal (nonzero) lengths alone never make it
fail. -/
theorem pyInit_isSome_iff (time ct bt : List ℚ) :
    (pyInit time ct bt).isSome = true ↔
      (time ≠ [] ∧ ct ≠ [] ∧ bt ≠ [] ∧
       (∀ v ∈ time, 0 ≤ v ∧ v ≤ 24) ∧ List.Chain' (· < ·) time) := by
  cases time with
  | nil =>
    rw [show pyInit [] ct bt = none from rfl]
    simp
  | cons t0 ts =>
    cases ct with
    | nil =>
      rw [show pyInit (t0 :: ts) [] bt = none from rfl]
      simp
    | cons c0 cs =>
      cases bt with
      | nil =>
        rw [show pyInit (t0 :: ts) (c0 :: cs) [] = none from rfl]
        simp
      | cons b0 bs =>
        simp only [pyInit]
        by_cases hcond : (∀ v ∈ t0 :: ts, 0 ≤ v) ∧ (∀ v ∈ t0 :: ts, v ≤ 24) ∧
            List.Chain' (· < ·) (t0 :: ts)
        · rw [if_pos hcond]
          simp only [Option.isSome_some, true_iff]
          refine ⟨by simp, by simp, by simp, ?_, hcond.2.2⟩
          intro v hv
          exact ⟨hcond.1 v hv, hcond.2.1 v hv⟩
        · rw [if_neg hcond]
          simp only [Option.isSome_none, Bool.false_eq_true, false_iff]
          rintro ⟨-, -, -, hv, hch⟩
          exact hcond ⟨fun v hv2 => (hv v hv2).1, fun v hv2 => (hv v hv2).2, hch⟩

/-! ### C5: the interpolation index -/

/-- C5 counterexample.  On the schedule `[6, 12, 22]` the normalized time
list is `[-2, 6, 12, 22, 30]`; evaluating exactly at the anchor `12`
(normalized index 2) selects `i = 3`, the interval `[12, 22]` *starting*
at the anchor — not the interval ending at it as the left-biased reading
claims. -/
theorem interp_bias_cex :
    (pyInit [6, 12, 22] [2700, 4000, 6500] [1/5, 1/2, 1]).map
        (fun c => bisect c.time 12 1 (c.time.length - 1)) = some 3 ∧
    (pyInit [6, 12, 22] [2700, 4000, 6500] [1/5, 1/2, 1]).map
        (fun c => c.time.getD 2 0) = some 12 ∧
    (pyInit [6, 12, 22] [2700, 4000, 6500] [1/5, 1/2, 1]).map
        (fun c => c.time.getD 3 0) = some 22 := by
  rw [pyInit_ex2]
  exact ⟨rfl, rfl, rfl⟩

/-- C5 amended.  `_interpolate` selects the unique `i ∈ [1, n-1]` with
`x[i-1] ≤ h < x[i]`; an `h` equal to an anchor resolves to the interval
*starting* at that anchor (right-biased, Python `bisect = bisect_right`);
and the returned value is `m*y[i] + (1-m)*y[i-1]` with
`m = (h - x[i-1]) / (x[i] - x[i-1])`. -/
theorem interp_index_spec (x y : List ℚ) (h : ℚ)
    (hch : List.Chain' (· < ·) x) (hlen : 2 ≤ x.length)
    (hlb : x.getD 0 0 ≤ h) (hub : h < x.getD (x.length - 1) 0) :
    1 ≤ bisect x h 1 (x.length - 1) ∧
    bisect x h 1 (x.length - 1) ≤ x.length - 1 ∧
    x.getD (bisect x h 1 (x.length - 1) - 1) 0 ≤ h ∧
    h < x.getD (bisect x h 1 (x.length - 1)) 0 ∧
    interpolate h x y =
      (h - x.getD (bisect x h 1 (x.length - 1) - 1) 0) /
          (x.getD (bisect x h 1 (x.length - 1)) 0 -
            x.getD (bisect x h 1 (x.length - 1) - 1) 0) *
          y.getD (bisect x h 1 (x.length - 1)) 0 +
        (1 - (h - x.getD (bisect x h 1 (x.length - 1) - 1) 0) /
          (x.getD (bisect x h 1 (x.length - 1)) 0 -
            x.getD (bisect x h 1 (x.length - 1) - 1) 0)) *
          y.getD (bisect x h 1 (x.length - 1) - 1) 0 ∧
    (∀ k, k + 1 < x.length → x.getD k 0 = h →
      bisect x h 1 (x.length - 1) = k + 1) := by
  obtain ⟨b1, b2, b3, b4⟩ := bisect_spec x h 1 (x.length - 1) (le_refl 1)
    (by omega) (by simpa using hlb) hub
  refine ⟨b1, b2, b3, b4, rfl, ?_⟩
  intro k hk hkh
  refine bracket_uniq x h hch b1 (by omega) (by omega) hk b3 b4 ?_ ?_
  · simpa using le_of_eq hkh
  · have hlt := chain'_getD_lt x hch (show k < k + 1 by omega) hk
    rw [hkh] at hlt
    exact hlt

/-- C5 witness: on `x = [0, 1]` with `h = 0` (an exact anchor) the chosen
index is `1`, the interval starting at the anchor. -/
theorem interp_index_witness :
    bisect ([0, 1] : List ℚ) 0 1 (([0, 1] : List ℚ).length - 1) = 0 + 1 :=
  (interp_index_spec [0, 1] [5, 7] 0
      (by norm_num [List.chain'_cons, List.chain'_singleton])
      (by norm_num) (by norm_num) (by norm_num)).2.2.2.2.2 0 (by norm_num) rfl

/-! ### C8: totality of evaluation on a constructed curve -/

/-- C8.  For every valid anchor set the normalized time list is strictly
increasing, starts `≤ 0` and ends `≥ 24`, and for every hour in `[0, 24)`
the selected index lies in `[1, n-1]` and the interpolation divisor
`x[i] - x[i-1]` is nonzero. -/
theorem curve_total (time ct bt : List ℚ) (c : Calc)
    (hc : pyInit time ct bt = some c)
    (hl1 : ct.length = time.length) (hl2 : bt.length = time.length)
    (h : ℚ) (h0 : 0 ≤ h) (h24 : h < 24) :
    List.Chain' (· < ·) c.time ∧ c.time.getD 0 0 ≤ 0 ∧
    24 ≤ c.time.getD (c.time.length - 1) 0 ∧ 2 ≤ c.time.length ∧
    1 ≤ bisect c.time h 1 (c.time.length - 1) ∧
    bisect c.time h 1 (c.time.length - 1) ≤ c.time.length - 1 ∧
    c.time.getD (bisect c.time h 1 (c.time.length - 1)) 0 -
      c.time.getD (bisect c.time h 1 (c.time.length - 1) - 1) 0 ≠ 0 := by
  obtain ⟨hn2, hch, hfirst, hlast⟩ := normTime_facts time ct bt c hc
  obtain ⟨b1, b2, b3, b4⟩ := bisect_spec c.time h 1 (c.time.length - 1)
    (le_refl 1) (by omega) (by simpa using le_trans hfirst h0)
    (lt_of_lt_of_le h24 hlast)
  exact ⟨hch, hfirst, hlast, hn2, b1, b2,
    sub_ne_zero_of_ne (lt_of_le_of_lt b3 b4).ne'⟩

/-- C8 witness: on the trivial schedule `[0, 24]` evaluated at noon the
selected index is in range. -/
theorem curve_total_witness :
    1 ≤ bisect (Calc.time ⟨[0, 24], [5, 5], [7, 7]⟩) 12 1
        ((Calc.time ⟨[0, 24], [5, 5], [7, 7]⟩).length - 1) :=
  (curve_total [0, 24] [5, 5] [7, 7] ⟨[0, 24], [5, 5], [7, 7]⟩ pyInit_ex3
    rfl rfl 12 (by norm_num) (by norm_num)).2.2.2.2.1

/-! ### C7: the curve passes through every anchor -/

/-- C7.  Evaluating the constructed curve exactly at any original anchor
time `t < 24` returns that anchor's stored brightness and colortemp
(exactly, over `ℚ`), so the two linear pieces meeting at each anchor agree
there. -/
theorem anchors_exact (time ct bt : List ℚ) (c : Calc)
    (hc : pyInit time ct bt = some c)
    (hl1 : ct.length = time.length) (hl2 : bt.length = time.length)
    (k : ℕ) (hk : k < time.length) (hlt24 : time.getD k 0 < 24) :
    callCalc c (time.getD k 0) = (bt.getD k 0, ct.getD k 0) := by
  obtain ⟨hmap, hlen⟩ := norm_getD_map time ct bt c hc hl1 hl2
    (if 0 < time.getD 0 0 then 1 else 0) rfl
  obtain ⟨hn2, hch, -, -⟩ := normTime_facts time ct bt c hc
  set off := (if 0 < time.getD 0 0 then 1 else 0) with hoffdef
  obtain ⟨hT, hC, hB⟩ := hmap k hk
  have hlast24 : ¬ time.getLastD 0 < 24 → k < time.length - 1 := by
    intro hge
    by_contra hcon
    have hkeq : k = time.length - 1 := by omega
    obtain ⟨ht, -, -, -, -, -, -, -, -⟩ := pyInit_decomp time ct bt c hc
    have hsame : time.getD k 0 = time.getLastD 0 := by
      rw [hkeq]
      exact (getLastD_eq_getD_pred time ht 0).symm
    rw [hsame] at hlt24
    exact hge hlt24
  have hjlt : k + off + 1 < c.time.length := by
    rw [hlen]
    by_cases hq : time.getLastD 0 < 24
    · rw [if_pos hq]
      omega
    · rw [if_neg hq]
      have := hlast24 hq
      omega
  have h1 := interpolate_anchor c.time c.brightness (k + off) hch hjlt
  have h2 := interpolate_anchor c.time c.colortemp (k + off) hch hjlt
  simp only [callCalc]
  rw [← hT, h1, h2, hB, hC]

/-- C7 witness: the `[6, 22]` curve evaluated at the anchor 6 returns
exactly (brightness 1/5, colortemp 2700). -/
theorem anchors_exact_witness :
    callCalc ⟨[22 - 24, 6, 22, 6 + 24], [6500, 2700, 6500, 2700],
              [1, 1/5, 1, 1/5]⟩ 6 = (1/5, 2700) := by
  have h := anchors_exact [6, 22] [2700, 6500] [1/5, 1]
    ⟨[22 - 24, 6, 22, 6 + 24], [6500, 2700, 6500, 2700], [1, 1/5, 1, 1/5]⟩
    pyInit_ex1 rfl rfl 0 (by norm_num) (by norm_num)
  simpa using h

/-! ### C6: midnight wraparound -/

/-- C6.  For the anchor set `time=[6,22], colortemp=[2700,6500],
brightness=[0.2,1.0]` evaluation at hour 2 yields brightness 0.6 and
colortemp 4600; and in general, for any schedule with `time[0] > 0` and
`time[-1] < 24`, every hour `h ∈ [0, time[0])` interpolates linearly
between the virtual anchor (last anchor shifted to `time[-1] - 24`) and
the first anchor. -/
theorem midnight_wrap :
    (pyInit [6, 22] [2700, 6500] [1/5, 1]).map (fun c => callCalc c 2) =
      some (3/5, 4600) ∧
    (∀ (time ct bt : List ℚ) (c : Calc) (h : ℚ),
      pyInit time ct bt = some c →
      0 < time.getD 0 0 → time.getLastD 0 < 24 →
      0 ≤ h → h < time.getD 0 0 →
      callCalc c h =
        ((h - (time.getLastD 0 - 24)) / (time.getD 0 0 - (time.getLastD 0 - 24)) *
            bt.getD 0 0 +
          (1 - (h - (time.getLastD 0 - 24)) /
            (time.getD 0 0 - (time.getLastD 0 - 24))) * bt.getLastD 0,
         (h - (time.getLastD 0 - 24)) / (time.getD 0 0 - (time.getLastD 0 - 24)) *
            ct.getD 0 0 +
          (1 - (h - (time.getLastD 0 - 24)) /
            (time.getD 0 0 - (time.getLastD 0 - 24))) * ct.getLastD 0)) := by
  constructor
  · rw [pyInit_ex1]
    show some (callCalc ⟨[22 - 24, 6, 22, 6 + 24], [6500, 2700, 6500, 2700],
        [1, 1/5, 1, 1/5]⟩ 2) = some (3/5, 4600)
    refine congrArg some ?_
    simp only [callCalc, interpolate]
    rw [show bisect [22 - 24, 6, 22, 6 + 24] 2 1
        (([22 - 24, 6, 22, 6 + 24] : List ℚ).length - 1) = 1 from rfl]
    norm_num
  · intro time ct bt c h hpy hpos hlt24 h0 hfirstlt
    obtain ⟨ht, hctne, hbtne, h0all, h24all, -, htime, hct, hbt⟩ :=
      pyInit_decomp time ct bt c hpy
    rw [if_pos hpos, if_pos hlt24] at htime hct hbt
    obtain ⟨hn2, hch, hfirst, hlastge⟩ := normTime_facts time ct bt c hpy
    have hlen : 0 < time.length := List.length_pos.mpr ht
    have hclen : 0 < ct.length := List.length_pos.mpr hctne
    have hblen : 0 < bt.length := List.length_pos.mpr hbtne
    have ht0mem : time.getD 0 0 ∈ time := getD_mem time 0 hlen
    have ht0le : time.getD 0 0 ≤ 24 := h24all _ ht0mem
    have hub : h < c.time.getD (c.time.length - 1) 0 :=
      lt_of_lt_of_le (lt_of_lt_of_le hfirstlt ht0le) hlastge
    obtain ⟨b1, b2, b3, b4⟩ := bisect_spec c.time h 1 (c.time.length - 1)
      (le_refl 1) (by omega) (by simpa using le_trans hfirst h0) hub
    have e0 : c.time.getD 0 0 = time.getLastD 0 - 24 := by
      rw [htime, List.append_assoc, List.getD_append _ _ _ _ (by simp),
        List.getD_cons_zero]
    have e1 : c.time.getD 1 0 = time.getD 0 0 := by
      rw [htime, List.append_assoc, List.singleton_append, List.getD_cons_succ,
        List.getD_append _ _ _ _ hlen]
    have ec0 : c.colortemp.getD 0 0 = ct.getLastD 0 := by
      rw [hct, List.append_assoc, List.getD_append _ _ _ _ (by simp),
        List.getD_cons_zero]
    have ec1 : c.colortemp.getD 1 0 = ct.getD 0 0 := by
      rw [hct, List.append_assoc, List.singleton_append, List.getD_cons_succ,
        List.getD_append _ _ _ _ hclen]
    have eb0 : c.brightness.getD 0 0 = bt.getLastD 0 := by
      rw [hbt, List.append_assoc, List.getD_append _ _ _ _ (by simp),
        List.getD_cons_zero]
    have eb1 : c.brightness.getD 1 0 = bt.getD 0 0 := by
      rw [hbt, List.append_assoc, List.singleton_append, List.getD_cons_succ,
        List.getD_append _ _ _ _ hblen]
    have hbis : bisect c.time h 1 (c.time.length - 1) = 1 := by
      refine bracket_uniq c.time h hch b1 (by omega) (by norm_num) (by omega)
        b3 b4 ?_ ?_
      · have h00 : c.time.getD (1 - 1) 0 = time.getLastD 0 - 24 := e0
        rw [h00]
        have hltmem : time.getLastD 0 ∈ time := by
          rw [getLastD_eq_getD_pred time ht]
          exact getD_mem time _ (by omega)
        have := h24all _ hltmem
        linarith
      · rw [e1]
        exact hfirstlt
    simp only [callCalc, interpolate, hbis, Prod.mk.injEq]
    have h00 : c.time.getD (1 - 1) 0 = time.getLastD 0 - 24 := e0
    have hc00 : c.colortemp.getD (1 - 1) 0 = ct.getLastD 0 := ec0
    have hb00 : c.brightness.getD (1 - 1) 0 = bt.getLastD 0 := eb0
    rw [h00, e1, hc00, ec1, hb00, eb1]
    exact ⟨rfl, rfl⟩

/-- C6 witness: the general wrap formula instantiated on the `[6, 22]`
schedule at hour 2 gives brightness 3/5 and colortemp 4600. -/
theorem midnight_wrap_witness :
    callCalc ⟨[22 - 24, 6, 22, 6 + 24], [6500, 2700, 6500, 2700],
              [1, 1/5, 1, 1/5]⟩ 2 = (3/5, 4600) := by
  have h := midnight_wrap.2 [6, 22] [2700, 6500] [1/5, 1]
    ⟨[22 - 24, 6, 22, 6 + 24], [6500, 2700, 6500, 2700], [1, 1/5, 1, 1/5]⟩ 2
    pyInit_ex1 (by norm_num) (by norm_num [List.getLastD]) (by norm_num)
    (by norm_num)
  rw [h]
  norm_num [List.getLastD]
